import Mathlib

/-!
Verification development for `assignment3_tf2/rnn_static_graph.py`: a recursive
(tree-structured) neural network for sentiment classification, compiled from a
per-example parse tree into a flattened array representation executed by a
single iterative loop over a growable table of node embeddings.

Numeric values are modelled as rationals (ℚ); vectors are lists of rationals
and matrices are lists of columns (so that a row-vector times matrix product
`x · W` is `W.cols.map (dot x)`).  Fallible indexing (TensorArray reads,
embedding gathers) returns `Option`.
-/

/-! ## Data model -/

/-- Binary parse-tree node (`ParseNode` in the spec; produced by the external
`tree` module).  A leaf carries a token (the Python code stores `None` for
internal nodes and a string for leaves; a missing word is modelled as the
empty string, matching Python truthiness of `node.word`).  Every node carries
an integer label. -/
inductive PNode where
  | leaf (word : String) (label : Int)
  | node (label : Int) (left : PNode) (right : PNode)
deriving DecidableEq, Repr

/-- Number of nodes of a parse tree. -/
def PNode.size : PNode → Nat
  | .leaf _ _ => 1
  | .node _ l r => l.size + r.size + 1

/-- Modelled from the spec: the external `utils.Vocab` collaborator.  Its
`encode` contract: "must return a defined id, e.g. an unknown sentinel, for
out-of-vocabulary tokens — must not raise for valid strings".  We model the
word-to-id map together with the id of the unknown slot. -/
structure Vocab where
  lookup : String → Option Nat
  unkId : Nat

/-- Modelled from the spec: `Vocab.encode` resolves a token to its id, or to
the unknown-slot sentinel id when the token is out of vocabulary. -/
def Vocab.encode (v : Vocab) (w : String) : Nat :=
  (v.lookup w).getD v.unkId

/-- One record of the flattened tree: the i-th entries of the five arrays fed
to `is_leaf_placeholder`, `left_children_placeholder`,
`right_children_placeholder`, `node_word_indices_placeholder` and
`labels_placeholder` by `build_feed_dict`. -/
structure NodeRec where
  isLeaf : Bool
  leftIdx : Int
  rightIdx : Int
  wordIdx : Int
  label : Int
deriving DecidableEq, Repr

/-- Word index assigned by `build_feed_dict`:
`self.vocab.encode(node.word) if node.word else -1`.  Internal nodes have no
word (Python `None`) and a leaf may carry the empty string; both are falsy in
Python, yielding `-1`. -/
def wordIndexOf (v : Vocab) (word : String) : Int :=
  if word ≠ "" then (v.encode word : Int) else -1

/-- Flattening of one subtree placed at offset `off` of the global node list.
Modelled from the spec for the part that lives in the external `tree` module:
`build_feed_dict` orders nodes with `tree.leftTraverse`, which the spec
describes as a child-before-parent (post-order) traversal — left subtree,
then right subtree, then the node itself.  `node_to_index` maps each (unique)
node object to its position in that traversal, so an internal node placed
after its two subtrees records the global positions of its children: the root
of the left subtree is the last node of the left block and the root of the
right subtree is the last node of the right block. -/
def flattenAux (v : Vocab) : PNode → Nat → List NodeRec
  | .leaf w lab, _ =>
      [⟨true, -1, -1, wordIndexOf v w, lab⟩]
  | .node lab l r, off =>
      let fl := flattenAux v l off
      let fr := flattenAux v r (off + fl.length)
      fl ++ fr ++
        [⟨false, ((off + fl.length : Nat) : Int) - 1,
          ((off + fl.length + fr.length : Nat) : Int) - 1, -1, lab⟩]

/-- Flattened representation produced by `build_feed_dict` for a whole tree
(as the list of per-node records; the five placeholder arrays are its
projections below). -/
def build_feed_dict (v : Vocab) (t : PNode) : List NodeRec :=
  flattenAux v t 0

/-- Array fed to `is_leaf_placeholder`. -/
def isLeafArr (ft : List NodeRec) : List Bool := ft.map (·.isLeaf)

/-- Array fed to `left_children_placeholder`. -/
def leftArr (ft : List NodeRec) : List Int := ft.map (·.leftIdx)

/-- Array fed to `right_children_placeholder`. -/
def rightArr (ft : List NodeRec) : List Int := ft.map (·.rightIdx)

/-- Array fed to `node_word_indices_placeholder`. -/
def wordArr (ft : List NodeRec) : List Int := ft.map (·.wordIdx)

/-- Array fed to `labels_placeholder`. -/
def labelArr (ft : List NodeRec) : List Int := ft.map (·.label)

/-! ## Model parameters and the tree-to-table executor -/

/-- Model variables of `RecursiveNetStaticGraph.__init__`: `embeddings` is a
list of rows (one row of length `embed_size` per vocabulary id); `W1`
(shape `2*embed_size × embed_size`) and `U` (shape `embed_size × label_size`)
are stored as lists of columns so that the row-vector products
`concat · W1` and `table[i] · U` are column-wise dot products; `b1` and `bs`
are the biases. -/
structure Params where
  embeddings : List (List ℚ)
  W1 : List (List ℚ)
  b1 : List ℚ
  U : List (List ℚ)
  bs : List ℚ

/-- Dot product of two vectors. -/
def dot (a b : List ℚ) : ℚ := (List.zipWith (· * ·) a b).sum

/-- Row-vector times matrix, the matrix given by its columns. -/
def matvec (x : List ℚ) (cols : List (List ℚ)) : List ℚ := cols.map (dot x)

/-- Pointwise sum of two vectors. -/
def addV (a b : List ℚ) : List ℚ := List.zipWith (· + ·) a b

/-- Rectified linear unit. -/
def relu (x : ℚ) : ℚ := max x 0

/-- Pointwise relu. -/
def reluV (v : List ℚ) : List ℚ := v.map relu

/-- Embedding lookup of `embed_word`:
`tf.gather(embeddings, word_index)` — fails (returns `none`) when the index
is negative or beyond the embedding matrix. -/
def embed_word (p : Params) (wordIndex : Int) : Option (List ℚ) :=
  if wordIndex < 0 then none else p.embeddings[wordIndex.toNat]?

/-- Composition step of `combine_children`:
`tf.nn.relu(tf.matmul(tf.concat([left_tensor, right_tensor], 1), W1) + b1)` —
the children are concatenated strictly in `[left, right]` order, the bias is
added after the matrix product, and relu is applied last. -/
def combine_children (p : Params) (leftTensor rightTensor : List ℚ) : List ℚ :=
  reluV (addV (matvec (leftTensor ++ rightTensor) p.W1) p.b1)

/-- TensorArray read: fails on a negative index or an index not yet written. -/
def taRead (ta : List (List ℚ)) (j : Int) : Option (List ℚ) :=
  if j < 0 then none else ta[j.toNat]?

/-- One iteration of `loop_body` at loop index `i`: gather the i-th entries of
the placeholder arrays, embed a leaf or combine the two already-computed
children, and write the result at index `i` of the tensor array (the loop
writes indices in order, so the write is an append). -/
def loop_body (p : Params) (ft : List NodeRec) (ta : List (List ℚ)) (i : Nat) :
    Option (List (List ℚ)) :=
  match ft[i]? with
  | none => none
  | some rec =>
      if rec.isLeaf then
        (embed_word p rec.wordIdx).map (fun nodeTensor => ta ++ [nodeTensor])
      else
        match taRead ta rec.leftIdx, taRead ta rec.rightIdx with
        | some lv, some rv => some (ta ++ [combine_children p lv rv])
        | _, _ => none

/-- Iterated loop body: run `n` iterations starting at loop index `i` with
current tensor array `ta`. -/
def runSteps (p : Params) (ft : List NodeRec) :
    Nat → List (List ℚ) → Nat → Option (List (List ℚ))
  | 0, ta, _ => some ta
  | n + 1, ta, i => (loop_body p ft ta i).bind (fun ta2 => runSteps p ft n ta2 (i + 1))

/-- The `tf.while_loop`: starting from an empty tensor array and `i = 0`,
iterate while `i < N` where `N` is the length of the placeholder arrays. -/
def runExecutor (p : Params) (ft : List NodeRec) : Option (List (List ℚ)) :=
  runSteps p ft ft.length [] 0

/-! ## Projection layer, prediction and losses -/

/-- Logits of the i-th table row:
row i of `self.logits = tf.matmul(self.tensor_array.concat(), U) + bs`. -/
def nodeLogits (p : Params) (ta : List (List ℚ)) (i : Nat) : List ℚ :=
  addV (matvec (ta.getD i []) p.U) p.bs

/-- Root logits:
`tf.matmul(self.tensor_array.read(self.tensor_array.size() - 1), U) + bs`. -/
def root_logits (p : Params) (ta : List (List ℚ)) : List ℚ :=
  nodeLogits p ta (ta.length - 1)

/-- Index of the first maximum, scanning left to right with a running best
value (`tf.argmax` returns the smallest index attaining the maximum). -/
def argmaxAux : List ℚ → Nat → Nat → ℚ → Nat
  | [], _, bi, _ => bi
  | x :: rest, i, bi, bv =>
      if x > bv then argmaxAux rest (i + 1) i x else argmaxAux rest (i + 1) bi bv

/-- Argmax over a list of logits (`tf.argmax(input, axis=1)` on one row). -/
def argmaxL : List ℚ → Nat
  | [] => 0
  | x :: xs => argmaxAux xs 1 0 x

/-- Root prediction:
`tf.squeeze(tf.argmax(input=self.root_logits, axis=1))`. -/
def root_prediction (p : Params) (ta : List (List ℚ)) : Nat :=
  argmaxL (root_logits p ta)

/-- L2 penalty `tf.nn.l2_loss(W) = sum(W ** 2) / 2` of a matrix. -/
def l2Loss (cols : List (List ℚ)) : ℚ :=
  (cols.map (fun c => (c.map (fun x => x * x)).sum)).sum / 2

/-- Regularization term
`self.config.l2 * (tf.nn.l2_loss(W1) + tf.nn.l2_loss(U))`. -/
def regularization_loss (l2coeff : ℚ) (p : Params) : ℚ :=
  l2coeff * (l2Loss p.W1 + l2Loss p.U)

/-- Included node indices:
`tf.compat.v1.where(tf.less(self.labels_placeholder, 2))` — the positions, in
order, whose label is strictly below 2. -/
def includedIndices (labels : List Int) : List Nat :=
  (List.range labels.length).filter (fun i => labels.getD i 0 < 2)

/-- Full-tree loss, parameterized by the cross-entropy kernel `ce` standing
for `tf.nn.sparse_softmax_cross_entropy_with_logits` (a transcendental
function left abstract): the regularization term plus the sum of `ce` at the
gathered logits and labels of the included indices. -/
def full_loss (ce : List ℚ → Int → ℚ) (l2coeff : ℚ) (p : Params)
    (ta : List (List ℚ)) (labels : List Int) : ℚ :=
  regularization_loss l2coeff p +
    ((includedIndices labels).map
      (fun i => ce (nodeLogits p ta i) (labels.getD i 0))).sum

/-- Root loss, parameterized by the same cross-entropy kernel: the sum of `ce`
of the root logits against the one-element label slice
`self.labels_placeholder[-1:]`. -/
def root_loss (ce : List ℚ → Int → ℚ) (p : Params)
    (ta : List (List ℚ)) (labels : List Int) : ℚ :=
  ((labels.drop (labels.length - 1)).map (fun l => ce (root_logits p ta) l)).sum

/-! ## Configuration and the training loop -/

/-- Hyperparameter record mirroring class `Config`. -/
structure Config where
  embed_size : Nat
  label_size : Nat
  early_stopping : Nat
  anneal_threshold : ℚ
  anneal_by : ℚ
  max_epochs : Nat
  lr : ℚ
  l2 : ℚ

/-- Default hyperparameters of class `Config` (decimal constants as exact
rationals). -/
def defaultConfig : Config :=
  ⟨35, 2, 2, 99 / 100, 3 / 2, 30, 1 / 100, 1 / 50⟩

/-- Snapshot of the optimizer taken at graph-construction time:
`tf.compat.v1.train.GradientDescentOptimizer(self.config.lr)` reads the value
of `self.config.lr` once, when `__init__` builds `self.train_op`; the
optimizer object keeps that number for the whole run. -/
structure Model where
  train_op_lr : ℚ

/-- Graph construction: capture the configuration's learning rate in the
training op. -/
def buildModel (cfg : Config) : Model := ⟨cfg.lr⟩

/-- Mutable state threaded through the epoch loop of `train`. `none` for
`prevEpochLoss` / `bestValLoss` models the initial `float('inf')`. -/
structure TrainState where
  lr : ℚ
  prevEpochLoss : Option ℚ
  bestValLoss : Option ℚ
  bestValEpoch : Nat
  stopped : Int
deriving DecidableEq, Repr

/-- State before the first epoch: `prev_epoch_loss = inf`,
`best_val_loss = inf`, `best_val_epoch = 0`, `stopped = -1`; the mutable
`config.lr` starts at the configured value. -/
def initState (cfg : Config) : TrainState :=
  ⟨cfg.lr, none, none, 0, -1⟩

/-- Comparison `x > p * c` against the previous epoch loss, false when the
previous loss is still `inf`. -/
def gtScaled (x : ℚ) (prev : Option ℚ) (c : ℚ) : Bool :=
  match prev with
  | none => false
  | some p => decide (x > p * c)

/-- Comparison `v < best`, true when the best is still `inf`. -/
def ltOpt (v : ℚ) (best : Option ℚ) : Bool :=
  match best with
  | none => true
  | some b => decide (v < b)

/-- Learning-rate annealing step of `train`:
`if epoch_loss > prev_epoch_loss * self.config.anneal_threshold:
self.config.lr /= self.config.anneal_by`, then
`prev_epoch_loss = epoch_loss`. -/
def annealUpdate (cfg : Config) (st : TrainState) (epochLoss : ℚ) : TrainState :=
  let st1 := if gtScaled epochLoss st.prevEpochLoss cfg.anneal_threshold
             then { st with lr := st.lr / cfg.anneal_by } else st
  { st1 with prevEpochLoss := some epochLoss }

/-- Checkpoint decision of `train`: `if val_loss < best_val_loss:` copy the
temp checkpoint to the best slot and record the epoch. -/
def checkpointUpdate (st : TrainState) (epoch : Nat) (valLoss : ℚ) : TrainState :=
  if ltOpt valLoss st.bestValLoss
  then { st with bestValLoss := some valLoss, bestValEpoch := epoch } else st

/-- Early-stopping check of `train`:
`if epoch - best_val_epoch > self.config.early_stopping: stopped = epoch` —
the `break` is commented out, so the state is only marked. -/
def stopCheck (cfg : Config) (st : TrainState) (epoch : Nat) : TrainState :=
  if (epoch : Int) - (st.bestValEpoch : Int) > (cfg.early_stopping : Int)
  then { st with stopped := epoch } else st

/-- End-of-epoch bookkeeping of one iteration of the epoch loop of `train`,
given the epoch's mean training loss and its validation loss. -/
def trainStep (cfg : Config) (st : TrainState) (epoch : Nat)
    (epochLoss valLoss : ℚ) : TrainState :=
  stopCheck cfg (checkpointUpdate (annealUpdate cfg st epochLoss) epoch valLoss) epoch

/-- Epoch loop of `train`: `for epoch in range(self.config.max_epochs)`,
folding the per-epoch bookkeeping over the outcome sequences (mean training
loss and validation loss of each epoch), also counting the executed
iterations. -/
def trainLoop (cfg : Config) (losses vlosses : Nat → ℚ) : TrainState × Nat :=
  (List.range cfg.max_epochs).foldl
    (fun acc epoch =>
      (trainStep cfg acc.1 epoch (losses epoch) (vlosses epoch), acc.2 + 1))
    (initState cfg, 0)

/-- Per-epoch learning rate actually applied by `sess.run(self.train_op)`:
the optimizer built once at construction time is used unchanged in every
epoch, so each epoch applies `(buildModel cfg).train_op_lr`. -/
def appliedLrs (cfg : Config) : List ℚ :=
  (List.range cfg.max_epochs).map (fun _ => (buildModel cfg).train_op_lr)

/-! ## Lemmas about the flattener -/

theorem PNode.size_pos (t : PNode) : 0 < t.size := by
  cases t <;> simp [PNode.size]

theorem flattenAux_length (v : Vocab) (t : PNode) (off : Nat) :
    (flattenAux v t off).length = t.size := by
  induction t generalizing off with
  | leaf w lab => simp [flattenAux, PNode.size]
  | node lab l r ihl ihr =>
      simp [flattenAux, PNode.size, ihl, ihr]; omega

theorem flattenAux_length_pos (v : Vocab) (t : PNode) (off : Nat) :
    0 < (flattenAux v t off).length := by
  rw [flattenAux_length]; exact t.size_pos

/-- Child-index invariant of the flattened block of a subtree placed at
offset `off`: leaves record `-1` twice; an internal node at local position
`i` (global position `off + i`) records child positions inside
`[off, off + i)`. -/
theorem flattenAux_bounds (v : Vocab) (t : PNode) :
    ∀ (off i : Nat) (nr : NodeRec), (flattenAux v t off)[i]? = some nr →
      (nr.isLeaf = true → nr.leftIdx = -1 ∧ nr.rightIdx = -1) ∧
      (nr.isLeaf = false →
        (off : Int) ≤ nr.leftIdx ∧ nr.leftIdx < (off : Int) + i ∧
        (off : Int) ≤ nr.rightIdx ∧ nr.rightIdx < (off : Int) + i) := by
  induction t with
  | leaf w lab =>
      intro off i nr h
      match i, h with
      | 0, h =>
          simp only [flattenAux, List.getElem?_cons_zero, Option.some.injEq] at h
          subst h
          exact ⟨fun _ => ⟨rfl, rfl⟩, fun h2 => by simp at h2⟩
      | n + 1, h =>
          simp [flattenAux] at h
  | node lab l r ihl ihr =>
      intro off i nr h
      simp only [flattenAux] at h
      have hlpos := flattenAux_length_pos v l off
      have hrpos := flattenAux_length_pos v r (off + (flattenAux v l off).length)
      by_cases hi : i < (flattenAux v l off).length
      · rw [List.getElem?_append_left (by simp; omega),
            List.getElem?_append_left hi] at h
        exact ihl off i nr h
      · push_neg at hi
        by_cases hi2 : i < (flattenAux v l off).length +
            (flattenAux v r (off + (flattenAux v l off).length)).length
        · rw [List.getElem?_append_left (by simp; omega),
              List.getElem?_append_right hi] at h
          have := ihr (off + (flattenAux v l off).length) (i - (flattenAux v l off).length) nr h
          refine ⟨this.1, fun hnl => ?_⟩
          obtain ⟨a, b, c, d⟩ := this.2 hnl
          push_cast at a b c d ⊢
          omega
        · push_neg at hi2
          rw [List.getElem?_append_right (by simp; omega)] at h
          match hzero : i - ((flattenAux v l off).length +
              (flattenAux v r (off + (flattenAux v l off).length)).length), h with
          | 0, h =>
              rw [List.length_append] at h
              rw [hzero] at h
              simp only [List.getElem?_cons_zero, Option.some.injEq] at h
              subst h
              refine ⟨fun h2 => by simp at h2, fun _ => ?_⟩
              simp only []
              push_cast
              omega
          | m + 1, h =>
              rw [List.length_append, hzero] at h
              simp at h

/-! ## Lemmas about the executor loop -/

theorem loop_body_some (p : Params) (ft : List NodeRec) (ta : List (List ℚ))
    (i : Nat) (out : List (List ℚ)) (h : loop_body p ft ta i = some out) :
    ∃ x, out = ta ++ [x] := by
  cases hft : ft[i]? with
  | none => simp only [loop_body, hft] at h; exact Option.noConfusion h
  | some nr =>
      simp only [loop_body, hft] at h
      by_cases hl : nr.isLeaf
      · rw [if_pos hl] at h
        cases he : embed_word p nr.wordIdx with
        | none => rw [he] at h; exact absurd h (by simp)
        | some x => rw [he] at h; simp at h; exact ⟨x, h.symm⟩
      · rw [if_neg hl] at h
        cases hlv : taRead ta nr.leftIdx with
        | none => rw [hlv] at h; exact absurd h (by simp)
        | some lv =>
            cases hrv : taRead ta nr.rightIdx with
            | none => rw [hlv, hrv] at h; exact absurd h (by simp)
            | some rv =>
                rw [hlv, hrv] at h
                simp only [Option.some.injEq] at h
                exact ⟨combine_children p lv rv, h.symm⟩

theorem runSteps_shape (p : Params) (ft : List NodeRec) :
    ∀ (n : Nat) (ta : List (List ℚ)) (i : Nat) (out : List (List ℚ)),
      runSteps p ft n ta i = some out →
      out.length = ta.length + n ∧ out.take ta.length = ta := by
  intro n
  induction n with
  | zero =>
      intro ta i out h
      simp only [runSteps, Option.some.injEq] at h
      subst h
      exact ⟨rfl, List.take_length ..⟩
  | succ n ih =>
      intro ta i out h
      simp only [runSteps] at h
      cases hlb : loop_body p ft ta i with
      | none => rw [hlb] at h; exact absurd h (by simp)
      | some ta2 =>
          rw [hlb] at h
          simp only [Option.some_bind] at h
          obtain ⟨x, hx⟩ := loop_body_some p ft ta i ta2 hlb
          obtain ⟨hlen, htake⟩ := ih ta2 (i + 1) out h
          subst hx
          constructor
          · have hax : (ta ++ [x]).length = ta.length + 1 := by simp
            omega
          · have h2 : (ta ++ [x]).length = ta.length + 1 := by simp
            rw [h2] at htake
            have h1 : out.take ta.length = (out.take (ta.length + 1)).take ta.length := by
              rw [List.take_take]; congr 1; omega
            rw [h1, htake]
            simp

theorem runSteps_add (p : Params) (ft : List NodeRec) :
    ∀ (m n : Nat) (ta : List (List ℚ)) (i : Nat),
      runSteps p ft (m + n) ta i =
        (runSteps p ft m ta i).bind (fun ta2 => runSteps p ft n ta2 (i + m)) := by
  intro m
  induction m with
  | zero =>
      intro n ta i
      simp [runSteps]
  | succ m ih =>
      intro n ta i
      have hmn : m + 1 + n = (m + n) + 1 := by omega
      rw [hmn]
      simp only [runSteps]
      cases hlb : loop_body p ft ta i with
      | none => simp
      | some ta2 =>
          simp only [Option.some_bind]
          rw [ih n ta2 (i + 1)]
          have : i + 1 + m = i + (m + 1) := by omega
          rw [this]

/-- Write characterization of a successful run: every loop index processed by
the run got its table entry from the leaf rule or from the combination rule
applied to the table reads of its recorded children. -/
theorem runSteps_entries (p : Params) (ft : List NodeRec) :
    ∀ (n : Nat) (ta : List (List ℚ)) (i : Nat) (out : List (List ℚ)),
      ta.length = i → runSteps p ft n ta i = some out →
      ∀ (j : Nat) (nr : NodeRec), i ≤ j → j < i + n → ft[j]? = some nr →
        (nr.isLeaf = true → ∃ wvec, embed_word p nr.wordIdx = some wvec ∧
          out[j]? = some wvec) ∧
        (nr.isLeaf = false → ∃ lv rv,
          taRead (out.take j) nr.leftIdx = some lv ∧
          taRead (out.take j) nr.rightIdx = some rv ∧
          out[j]? = some (combine_children p lv rv)) := by
  intro n
  induction n with
  | zero =>
      intro ta i out _ _ j nr hij hjn
      omega
  | succ n ih =>
      intro ta i out hlen h j nr hij hjn hft
      simp only [runSteps] at h
      cases hlb : loop_body p ft ta i with
      | none => rw [hlb] at h; exact Option.noConfusion h
      | some ta2 =>
          rw [hlb] at h
          simp only [Option.some_bind] at h
          obtain ⟨x, hx⟩ := loop_body_some p ft ta i ta2 hlb
          have hlen2 : ta2.length = i + 1 := by rw [hx]; simp; omega
          rcases Nat.eq_or_lt_of_le hij with hji | hlt
          · -- j = i : the entry was written by this very iteration
            rw [← hji] at hft ⊢
            have hshape := runSteps_shape p ft n ta2 (i + 1) out h
            have htk : out.take (i + 1) = ta2 := by
              rw [← hlen2]; exact hshape.2
            have houtj : out[i]? = ta2[i]? := by
              have h1 : ta2[i]? = (out.take (i + 1))[i]? := by rw [htk]
              rw [h1, List.getElem?_take_of_lt (by omega)]
            have htaj : out.take i = ta := by
              have hta : ta = ta2.take i := by
                rw [hx]; rw [List.take_append_of_le_length (by omega)]
                rw [← hlen]; simp
              rw [hta, ← htk, List.take_take]
              congr 1; omega
            simp only [loop_body, hft] at hlb
            constructor
            · intro hleaf
              rw [if_pos hleaf] at hlb
              cases he : embed_word p nr.wordIdx with
              | none => rw [he] at hlb; exact Option.noConfusion hlb
              | some wvec =>
                  rw [he] at hlb
                  have hlb2 : ta ++ [wvec] = ta2 := by simpa using hlb
                  refine ⟨wvec, rfl, ?_⟩
                  rw [houtj, ← hlb2]
                  rw [List.getElem?_append_right (by omega)]
                  rw [← hlen]
                  simp
            · intro hnl
              rw [if_neg (by simp [hnl])] at hlb
              cases hlv : taRead ta nr.leftIdx with
              | none => rw [hlv] at hlb; exact Option.noConfusion hlb
              | some lv =>
                  cases hrv : taRead ta nr.rightIdx with
                  | none => rw [hlv, hrv] at hlb; exact Option.noConfusion hlb
                  | some rv =>
                      rw [hlv, hrv] at hlb
                      simp only [Option.some.injEq] at hlb
                      refine ⟨lv, rv, ?_, ?_, ?_⟩
                      · rw [htaj]; exact hlv
                      · rw [htaj]; exact hrv
                      · rw [houtj, ← hlb]
                        rw [List.getElem?_append_right (by omega)]
                        rw [← hlen]
                        simp
          · -- j > i : the entry was written by a later iteration
            exact ih ta2 (i + 1) out hlen2 h j nr hlt (by omega) hft

theorem runSteps_zero (p : Params) (ft : List NodeRec) (ta : List (List ℚ))
    (i : Nat) : runSteps p ft 0 ta i = some ta := rfl

theorem runSteps_succ (p : Params) (ft : List NodeRec) (n : Nat)
    (ta : List (List ℚ)) (i : Nat) :
    runSteps p ft (n + 1) ta i =
      (loop_body p ft ta i).bind (fun ta2 => runSteps p ft n ta2 (i + 1)) := rfl

/-- Boolean check that every leaf of a tree carries a nonempty token ("missing
word" is the empty string). -/
def goodWords : PNode → Bool
  | .leaf w _ => w != ""
  | .node _ l r => goodWords l && goodWords r

/-- Totality of the executor over the flattened block of a subtree: if the
vocabulary only produces ids that are valid embedding rows and every leaf has
a present word, then running the block's iterations from a table whose length
equals the block's offset succeeds. -/
theorem runSteps_flatten_total (v : Vocab) (p : Params)
    (hv : ∀ w, v.encode w < p.embeddings.length) :
    ∀ (t : PNode) (off : Nat) (big : List NodeRec) (ta : List (List ℚ)),
      ta.length = off →
      (∀ (j : Nat) (nr : NodeRec), (flattenAux v t off)[j]? = some nr →
        big[off + j]? = some nr) →
      goodWords t = true →
      ∃ out, runSteps p big t.size ta off = some out := by
  intro t
  induction t with
  | leaf w lab =>
      intro off big ta hlen hagree hw
      have hw2 : w ≠ "" := by simpa [goodWords] using hw
      have hrec : (flattenAux v (.leaf w lab) off)[0]? =
          some ⟨true, -1, -1, wordIndexOf v w, lab⟩ := by
        simp [flattenAux]
      have hbig := hagree 0 _ hrec
      rw [Nat.add_zero] at hbig
      have hwi : wordIndexOf v w = (v.encode w : Int) := by
        simp [wordIndexOf, hw2]
      have hemb : embed_word p (wordIndexOf v w) =
          some (p.embeddings.get ⟨v.encode w, hv w⟩) := by
        rw [hwi]
        unfold embed_word
        rw [if_neg (by omega)]
        have ht : ((v.encode w : Int)).toNat = v.encode w := by simp
        rw [ht]
        exact List.getElem?_eq_getElem (hv w)
      refine ⟨ta ++ [p.embeddings.get ⟨v.encode w, hv w⟩], ?_⟩
      show runSteps p big (0 + 1) ta off = _
      rw [runSteps_succ]
      simp [loop_body, hbig, hemb, runSteps_zero]
  | node lab l r ihl ihr =>
      intro off big ta hlen hagree hw
      have hwl : goodWords l = true := by
        have := hw; simp [goodWords] at this; exact this.1
      have hwr : goodWords r = true := by
        have := hw; simp [goodWords] at this; exact this.2
      have hfl := flattenAux_length v l off
      have hfr := flattenAux_length v r (off + (flattenAux v l off).length)
      have hflpos := flattenAux_length_pos v l off
      have hfrpos := flattenAux_length_pos v r (off + (flattenAux v l off).length)
      -- agreement restricted to the left block
      have hagl : ∀ (j : Nat) (nr : NodeRec), (flattenAux v l off)[j]? = some nr →
          big[off + j]? = some nr := by
        intro j nr hj
        have hjlt : j < (flattenAux v l off).length := (List.getElem?_eq_some.mp hj).1
        apply hagree
        simp only [flattenAux]
        rw [List.getElem?_append_left (by simp; omega),
            List.getElem?_append_left hjlt]
        exact hj
      obtain ⟨out1, h1⟩ := ihl off big ta hlen hagl hwl
      have hshape1 := runSteps_shape p big l.size ta off out1 h1
      have hlen1 : out1.length = off + l.size := by omega
      -- agreement restricted to the right block
      have hagr : ∀ (j : Nat) (nr : NodeRec),
          (flattenAux v r (off + (flattenAux v l off).length))[j]? = some nr →
          big[(off + l.size) + j]? = some nr := by
        intro j nr hj
        have hjlt : j < (flattenAux v r (off + (flattenAux v l off).length)).length :=
          (List.getElem?_eq_some.mp hj).1
        have := hagree ((flattenAux v l off).length + j) nr ?_
        · rw [← this]; congr 1; omega
        · simp only [flattenAux]
          rw [List.getElem?_append_left (by simp; omega),
              List.getElem?_append_right (by omega)]
          have hidx : (flattenAux v l off).length + j - (flattenAux v l off).length = j := by
            omega
          rw [hidx]
          exact hj
      have hagr2 : ∀ (j : Nat) (nr : NodeRec), (flattenAux v r (off + l.size))[j]? = some nr →
          big[(off + l.size) + j]? = some nr := by
        intro j nr hj
        apply hagr
        rw [hfl]
        exact hj
      obtain ⟨out2, h2⟩ := ihr (off + l.size) big out1 hlen1 hagr2 hwr
      have hshape2 := runSteps_shape p big r.size out1 (off + l.size) out2 h2
      have hlen2 : out2.length = off + l.size + r.size := by omega
      -- the root combination step
      have hroot : big[off + (l.size + r.size)]? =
          some ⟨false, ((off + (flattenAux v l off).length : Nat) : Int) - 1,
            ((off + (flattenAux v l off).length +
              (flattenAux v r (off + (flattenAux v l off).length)).length : Nat) : Int) - 1,
            -1, lab⟩ := by
        apply hagree
        simp only [flattenAux]
        rw [List.getElem?_append_right (by simp; omega)]
        have hidx : l.size + r.size - ((flattenAux v l off) ++
            (flattenAux v r (off + (flattenAux v l off).length))).length = 0 := by
          simp; omega
        rw [hidx]
        rfl
      have hL : taRead out2 (((off + (flattenAux v l off).length : Nat) : Int) - 1) =
          some (out2.get ⟨off + l.size - 1, by omega⟩) := by
        unfold taRead
        rw [if_neg (by push_cast; omega)]
        have ht : ((((off + (flattenAux v l off).length : Nat) : Int) - 1)).toNat =
            off + l.size - 1 := by
          rw [hfl]; omega
        rw [ht]
        exact List.getElem?_eq_getElem (by omega)
      have hR : taRead out2 (((off + (flattenAux v l off).length +
            (flattenAux v r (off + (flattenAux v l off).length)).length : Nat) : Int) - 1) =
          some (out2.get ⟨off + l.size + r.size - 1, by omega⟩) := by
        unfold taRead
        rw [if_neg (by push_cast; omega)]
        have ht : ((((off + (flattenAux v l off).length +
            (flattenAux v r (off + (flattenAux v l off).length)).length : Nat) : Int) - 1)).toNat =
            off + l.size + r.size - 1 := by
          rw [hfr, hfl]; omega
        rw [ht]
        exact List.getElem?_eq_getElem (by omega)
      refine ⟨out2 ++ [combine_children p (out2.get ⟨off + l.size - 1, by omega⟩)
        (out2.get ⟨off + l.size + r.size - 1, by omega⟩)], ?_⟩
      have hsize : (PNode.node lab l r).size = l.size + (r.size + (0 + 1)) := by
        simp [PNode.size]; omega
      rw [hsize, runSteps_add, h1, Option.some_bind, runSteps_add, h2, Option.some_bind]
      rw [runSteps_succ]
      have hidx2 : off + l.size + r.size = off + (l.size + r.size) := by omega
      simp only [loop_body, hidx2, hroot]
      rw [if_neg (by simp)]
      simp only [hL, hR]
      rw [Option.some_bind, runSteps_zero]
      have e1 : off + (l.size + r.size) - 1 = off + l.size + r.size - 1 := by omega
      simp only [e1]

/-! ## Concrete instances used by witnesses -/

/-- Vocabulary with an empty word map (everything is out of vocabulary and
resolves to the unknown slot 0). -/
def testVocab : Vocab := ⟨fun _ => none, 0⟩

/-- Three-node tree: an internal root over the leaves "a" and "b". -/
def testTree : PNode := .node 1 (.leaf "a" 0) (.leaf "b" 1)

/-! ## Claim theorems -/

/-- C1: for every parse tree, the flattened representation produced by
`build_feed_dict` satisfies the ordering invariant: an internal node at
position `i` records left- and right-child indices strictly less than `i`
(children appear at strictly earlier positions than their parent, and the
indices are nonnegative), and a leaf records `-1` for both child indices. -/
theorem C1_flatten_ordering (v : Vocab) (t : PNode) (i : Nat) (nr : NodeRec)
    (h : (build_feed_dict v t)[i]? = some nr) :
    (nr.isLeaf = true → nr.leftIdx = -1 ∧ nr.rightIdx = -1) ∧
    (nr.isLeaf = false →
      0 ≤ nr.leftIdx ∧ nr.leftIdx < (i : Int) ∧
      0 ≤ nr.rightIdx ∧ nr.rightIdx < (i : Int)) := by
  have hb := flattenAux_bounds v t 0 i nr h
  refine ⟨hb.1, fun hnl => ?_⟩
  obtain ⟨a, b, c, d⟩ := hb.2 hnl
  push_cast at a b c d ⊢
  omega

theorem C1_flatten_ordering_witness :
    (build_feed_dict testVocab testTree)[2]? = some ⟨false, 0, 1, -1, 1⟩ ∧
    (((⟨false, 0, 1, -1, 1⟩ : NodeRec).isLeaf = true →
        (⟨false, 0, 1, -1, 1⟩ : NodeRec).leftIdx = -1 ∧
        (⟨false, 0, 1, -1, 1⟩ : NodeRec).rightIdx = -1) ∧
     ((⟨false, 0, 1, -1, 1⟩ : NodeRec).isLeaf = false →
        0 ≤ (⟨false, 0, 1, -1, 1⟩ : NodeRec).leftIdx ∧
        (⟨false, 0, 1, -1, 1⟩ : NodeRec).leftIdx < ((2 : Nat) : Int) ∧
        0 ≤ (⟨false, 0, 1, -1, 1⟩ : NodeRec).rightIdx ∧
        (⟨false, 0, 1, -1, 1⟩ : NodeRec).rightIdx < ((2 : Nat) : Int))) :=
  ⟨by decide, C1_flatten_ordering testVocab testTree 2 _ (by decide)⟩

/-- C10: the flattener is a deterministic function of the tree — two runs of
`build_feed_dict` on the same tree produce identical output in all five
flattened arrays (is-leaf flags, left-child indices, right-child indices,
word indices, labels). -/
theorem C10_flatten_deterministic (v : Vocab) (t1 t2 : PNode) (h : t1 = t2) :
    isLeafArr (build_feed_dict v t1) = isLeafArr (build_feed_dict v t2) ∧
    leftArr (build_feed_dict v t1) = leftArr (build_feed_dict v t2) ∧
    rightArr (build_feed_dict v t1) = rightArr (build_feed_dict v t2) ∧
    wordArr (build_feed_dict v t1) = wordArr (build_feed_dict v t2) ∧
    labelArr (build_feed_dict v t1) = labelArr (build_feed_dict v t2) := by
  subst h
  exact ⟨rfl, rfl, rfl, rfl, rfl⟩

theorem C10_flatten_deterministic_witness :
    testTree = testTree ∧
    (isLeafArr (build_feed_dict testVocab testTree) =
       isLeafArr (build_feed_dict testVocab testTree) ∧
     leftArr (build_feed_dict testVocab testTree) =
       leftArr (build_feed_dict testVocab testTree) ∧
     rightArr (build_feed_dict testVocab testTree) =
       rightArr (build_feed_dict testVocab testTree) ∧
     wordArr (build_feed_dict testVocab testTree) =
       wordArr (build_feed_dict testVocab testTree) ∧
     labelArr (build_feed_dict testVocab testTree) =
       labelArr (build_feed_dict testVocab testTree)) :=
  ⟨rfl, C10_flatten_deterministic testVocab testTree testTree rfl⟩

/-- Parameters for the executor witness: two embedding rows `[1]` and `[2]`
(embed size 1), one composition column `[1, 3]` with bias `[1]`. -/
def pComb : Params := ⟨[[1], [2]], [[1, 3]], [1], [], []⟩

/-- Flattened three-node tree (two leaves with word ids 0 and 1, then the
root combining positions 0 and 1). -/
def ftComb : List NodeRec :=
  [⟨true, -1, -1, 0, 0⟩, ⟨true, -1, -1, 1, 0⟩, ⟨false, 0, 1, -1, 1⟩]

/-- C2: whenever the executor succeeds, every non-leaf node at index `i` gets
the table entry `relu(concat(table[leftIndex], table[rightIndex]) · W1 + b1)`
— children read from the table built so far, concatenated strictly in
`[left, right]` order, bias added after the matrix product, relu applied
last; moreover swapping the left and right arguments of the combination
changes the result on some input whose two child embeddings differ. -/
theorem C2_combine_rule :
    (∀ (p : Params) (ft : List NodeRec) (out : List (List ℚ)) (i : Nat)
       (nr : NodeRec),
      runExecutor p ft = some out → ft[i]? = some nr → nr.isLeaf = false →
      ∃ lv rv,
        taRead (out.take i) nr.leftIdx = some lv ∧
        taRead (out.take i) nr.rightIdx = some rv ∧
        out[i]? = some (reluV (addV (matvec (lv ++ rv) p.W1) p.b1))) ∧
    (∃ (p : Params) (lv rv : List ℚ), lv ≠ rv ∧
      combine_children p lv rv ≠ combine_children p rv lv) := by
  constructor
  · intro p ft out i nr hrun hft hnl
    have hi : i < ft.length := (List.getElem?_eq_some.mp hft).1
    have hE := runSteps_entries p ft ft.length [] 0 out rfl hrun i nr
      (Nat.zero_le i) (by omega) hft
    obtain ⟨lv, rv, h1, h2, h3⟩ := hE.2 hnl
    exact ⟨lv, rv, h1, h2, h3⟩
  · refine ⟨⟨[], [[1, 0]], [0], [], []⟩, [1], [0], ?_, ?_⟩
    · norm_num
    · norm_num [combine_children, reluV, addV, matvec, dot, relu]

theorem C2_combine_rule_witness :
    runExecutor pComb ftComb = some [[1], [2], [8]] ∧
    ftComb[2]? = some ⟨false, 0, 1, -1, 1⟩ ∧
    (⟨false, 0, 1, -1, 1⟩ : NodeRec).isLeaf = false ∧
    (∃ lv rv,
      taRead (([[(1 : ℚ)], [(2 : ℚ)], [(8 : ℚ)]]).take 2)
        (⟨false, 0, 1, -1, 1⟩ : NodeRec).leftIdx = some lv ∧
      taRead (([[(1 : ℚ)], [(2 : ℚ)], [(8 : ℚ)]]).take 2)
        (⟨false, 0, 1, -1, 1⟩ : NodeRec).rightIdx = some rv ∧
      ([[(1 : ℚ)], [(2 : ℚ)], [(8 : ℚ)]])[2]? =
        some (reluV (addV (matvec (lv ++ rv) pComb.W1) pComb.b1))) := by
  have hrun : runExecutor pComb ftComb = some [[1], [2], [8]] := by
    norm_num [runExecutor, ftComb, pComb, runSteps, loop_body, taRead,
      embed_word, combine_children, reluV, addV, matvec, dot, relu]
  refine ⟨hrun, by decide, rfl, ?_⟩
  exact C2_combine_rule.1 pComb ftComb [[1], [2], [8]] 2 _ hrun (by decide) rfl

/-- Word-index characterization of the flattened records: internal nodes get
word index `-1`; every leaf record carries `wordIndexOf` of some leaf word. -/
theorem flattenAux_word (v : Vocab) (t : PNode) :
    ∀ (off i : Nat) (nr : NodeRec), (flattenAux v t off)[i]? = some nr →
      (nr.isLeaf = false → nr.wordIdx = -1) ∧
      (nr.isLeaf = true →
        ∃ w lab, nr = ⟨true, -1, -1, wordIndexOf v w, lab⟩) := by
  induction t with
  | leaf w lab =>
      intro off i nr h
      match i, h with
      | 0, h =>
          simp only [flattenAux, List.getElem?_cons_zero, Option.some.injEq] at h
          subst h
          exact ⟨fun h2 => by simp at h2, fun _ => ⟨w, lab, rfl⟩⟩
      | n + 1, h =>
          simp [flattenAux] at h
  | node lab l r ihl ihr =>
      intro off i nr h
      simp only [flattenAux] at h
      by_cases hi : i < (flattenAux v l off).length
      · rw [List.getElem?_append_left (by simp; omega),
            List.getElem?_append_left hi] at h
        exact ihl off i nr h
      · push_neg at hi
        by_cases hi2 : i < (flattenAux v l off).length +
            (flattenAux v r (off + (flattenAux v l off).length)).length
        · rw [List.getElem?_append_left (by simp; omega),
              List.getElem?_append_right hi] at h
          exact ihr (off + (flattenAux v l off).length)
            (i - (flattenAux v l off).length) nr h
        · push_neg at hi2
          rw [List.getElem?_append_right (by simp; omega)] at h
          match hzero : i - ((flattenAux v l off).length +
              (flattenAux v r (off + (flattenAux v l off).length)).length), h with
          | 0, h =>
              rw [List.length_append, hzero] at h
              simp only [List.getElem?_cons_zero, Option.some.injEq] at h
              subst h
              exact ⟨fun _ => rfl, fun h2 => by simp at h2⟩
          | m + 1, h =>
              rw [List.length_append, hzero] at h
              simp at h

/-- Vocabulary and parameters for the single-leaf witness: "x" has id 1, the
unknown slot is 0, and the embedding matrix has rows `[5]` and `[7]`. -/
def vLeaf : Vocab := ⟨fun s => if s = "x" then some 1 else none, 0⟩

/-- Parameters with two embedding rows, projection `U` with columns `[2]` and
`[1]` and bias `[0, 0]` (label size 2). -/
def pLeaf : Params := ⟨[[5], [7]], [], [], [[2], [1]], [0, 0]⟩

/-- C8: for a single-leaf tree, the executor's output table has exactly one
row, equal to the embedding-matrix row of the word's vocabulary id (a direct
lookup, not further transformed), and the root prediction is the argmax of
that embedding projected by `U` and `bs`. -/
theorem C8_single_leaf (v : Vocab) (p : Params) (w : String) (lab : Int)
    (hw : w ≠ "") (hv : v.encode w < p.embeddings.length) :
    runExecutor p (build_feed_dict v (.leaf w lab)) =
      some [p.embeddings.get ⟨v.encode w, hv⟩] ∧
    root_prediction p [p.embeddings.get ⟨v.encode w, hv⟩] =
      argmaxL (addV (matvec (p.embeddings.get ⟨v.encode w, hv⟩) p.U) p.bs) := by
  have hwi : wordIndexOf v w = (v.encode w : Int) := by
    simp [wordIndexOf, hw]
  have hemb : embed_word p (wordIndexOf v w) =
      some (p.embeddings.get ⟨v.encode w, hv⟩) := by
    rw [hwi]
    unfold embed_word
    rw [if_neg (by omega)]
    have ht : ((v.encode w : Int)).toNat = v.encode w := by simp
    rw [ht]
    exact List.getElem?_eq_getElem hv
  constructor
  · show runSteps p (build_feed_dict v (.leaf w lab)) (0 + 1) [] 0 = _
    rw [runSteps_succ]
    simp [loop_body, build_feed_dict, flattenAux, hemb, runSteps_zero]
  · simp [root_prediction, root_logits, nodeLogits]

theorem C8_single_leaf_witness :
    "x" ≠ "" ∧ vLeaf.encode "x" < pLeaf.embeddings.length ∧
    (runExecutor pLeaf (build_feed_dict vLeaf (.leaf "x" 1)) =
       some [pLeaf.embeddings.get ⟨vLeaf.encode "x", by decide⟩] ∧
     root_prediction pLeaf [pLeaf.embeddings.get ⟨vLeaf.encode "x", by decide⟩] =
       argmaxL (addV (matvec (pLeaf.embeddings.get ⟨vLeaf.encode "x", by decide⟩)
         pLeaf.U) pLeaf.bs)) :=
  ⟨by decide, by decide,
    C8_single_leaf vLeaf pLeaf "x" 1 (by decide) (by decide)⟩

/-- Dropping all but the last element leaves exactly the last element (the
Python slice `labels[-1:]` of a nonempty list). -/
theorem drop_length_sub_one : ∀ (l : List Int) (h : l ≠ []),
    l.drop (l.length - 1) = [l.getLast h]
  | [], h => absurd rfl h
  | [_], _ => rfl
  | a :: b :: bs, _ => by
      have ih := drop_length_sub_one (b :: bs) (by simp)
      have h1 : (a :: b :: bs).length - 1 = bs.length + 1 := by simp
      rw [h1, List.drop_succ_cons]
      have h3 : (b :: bs).length - 1 = bs.length := by simp
      rw [h3] at ih
      rw [ih, List.getLast_cons (by simp : (b :: bs) ≠ [])]

/-- C3: the full-tree loss is the l2 coefficient times the L2 penalties of
`W1` and `U` plus the per-node cross-entropy summed over exactly the nodes
whose label is 0 or 1; a node labelled with the sentinel 2 is never among
the included indices. -/
theorem C3_full_loss (ce : List ℚ → Int → ℚ) (l2c : ℚ) (p : Params)
    (ta : List (List ℚ)) (labels : List Int)
    (hlab : ∀ l ∈ labels, l = 0 ∨ l = 1 ∨ l = 2) :
    full_loss ce l2c p ta labels =
      l2c * (l2Loss p.W1 + l2Loss p.U) +
        (((List.range labels.length).filter
            (fun i => labels.getD i 0 = 0 ∨ labels.getD i 0 = 1)).map
          (fun i => ce (nodeLogits p ta i) (labels.getD i 0))).sum ∧
    (∀ i, i < labels.length → labels.getD i 0 = 2 →
      i ∉ includedIndices labels) := by
  have hfilter : includedIndices labels =
      (List.range labels.length).filter
        (fun i => labels.getD i 0 = 0 ∨ labels.getD i 0 = 1) := by
    unfold includedIndices
    apply List.filter_congr
    intro i hi
    have hilt : i < labels.length := List.mem_range.mp hi
    have hgd : labels.getD i 0 = labels[i] := by
      rw [List.getD_eq_getElem?_getD, List.getElem?_eq_getElem hilt]
      rfl
    have hmem : labels.getD i 0 ∈ labels := by
      rw [hgd]; exact List.getElem_mem hilt
    have htri := hlab _ hmem
    apply decide_eq_decide.mpr
    omega
  constructor
  · unfold full_loss regularization_loss
    rw [hfilter]
  · intro i hilt h2 hmem
    simp only [includedIndices, List.mem_filter, List.mem_range,
      decide_eq_true_eq] at hmem
    omega

theorem C3_full_loss_witness :
    (∀ l ∈ ([0, 2, 1] : List Int), l = 0 ∨ l = 1 ∨ l = 2) ∧
    (full_loss (fun _ _ => 1) (1 / 50) pLeaf [[5], [7], [5]] [0, 2, 1] =
      (1 / 50) * (l2Loss pLeaf.W1 + l2Loss pLeaf.U) +
        (((List.range ([0, 2, 1] : List Int).length).filter
            (fun i => ([0, 2, 1] : List Int).getD i 0 = 0 ∨
              ([0, 2, 1] : List Int).getD i 0 = 1)).map
          (fun i => (fun _ _ => (1 : ℚ))
            (nodeLogits pLeaf [[5], [7], [5]] i)
            (([0, 2, 1] : List Int).getD i 0))).sum ∧
     (∀ i, i < ([0, 2, 1] : List Int).length →
       ([0, 2, 1] : List Int).getD i 0 = 2 →
       i ∉ includedIndices [0, 2, 1])) :=
  ⟨by decide,
   C3_full_loss (fun _ _ => 1) (1 / 50) pLeaf [[5], [7], [5]] [0, 2, 1]
     (by decide)⟩

/-- C4: the root loss is the cross-entropy of the root logits (the last table
entry projected by `U` and `bs`) against the last element of the labels
sequence — the root's own label — with no sentinel exclusion applied. -/
theorem C4_root_loss (ce : List ℚ → Int → ℚ) (p : Params)
    (ta : List (List ℚ)) (labels : List Int) (h : labels ≠ []) :
    root_loss ce p ta labels =
      ce (addV (matvec (ta.getD (ta.length - 1) []) p.U) p.bs)
        (labels.getLast h) := by
  unfold root_loss root_logits nodeLogits
  rw [drop_length_sub_one labels h]
  simp

theorem C4_root_loss_witness :
    ([0, 2] : List Int) ≠ [] ∧
    root_loss (fun _ l => (l : ℚ)) pLeaf [[5], [7]] [0, 2] =
      (fun _ l => (l : ℚ))
        (addV (matvec (([[5], [7]] : List (List ℚ)).getD
          (([[5], [7]] : List (List ℚ)).length - 1) []) pLeaf.U) pLeaf.bs)
        (([0, 2] : List Int).getLast (by decide)) :=
  ⟨by decide, C4_root_loss (fun _ l => (l : ℚ)) pLeaf [[5], [7]] [0, 2]
    (by decide)⟩

/-- C9 counterexample: a leaf whose word is missing (Python-falsy) gets word
index `-1` — not a vocabulary-resolved sentinel id (the unknown slot of
`testVocab` is id 0) — and the executor then fails on that leaf, because
`tf.gather` on index `-1` is not a valid embedding lookup. -/
theorem C9_missing_word_counterexample :
    wordArr (build_feed_dict testVocab (.leaf "" 0)) = [-1] ∧
    (testVocab.unkId : Int) ≠ -1 ∧
    runExecutor pLeaf (build_feed_dict testVocab (.leaf "" 0)) = none := by
  refine ⟨by decide, by decide, by decide⟩

/-- C9 (amended): internal nodes get word index `-1`; every leaf record's
word index is `wordIndexOf` of its word, which for a present (nonempty) word
is the vocabulary lookup — resolving out-of-vocabulary words to the unknown
sentinel id — and for a missing (empty) word is `-1`; and when every encoded
id is a valid embedding row and every leaf word is present, flattening
followed by the executor never fails. -/
theorem C9_word_resolution :
    (∀ (v : Vocab) (t : PNode) (i : Nat) (nr : NodeRec),
       (build_feed_dict v t)[i]? = some nr →
       (nr.isLeaf = false → nr.wordIdx = -1) ∧
       (nr.isLeaf = true →
         ∃ w lab, nr = ⟨true, -1, -1, wordIndexOf v w, lab⟩)) ∧
    (∀ (v : Vocab) (w : String), w ≠ "" →
       wordIndexOf v w = (v.encode w : Int)) ∧
    (∀ (v : Vocab) (w : String), w ≠ "" → v.lookup w = none →
       wordIndexOf v w = (v.unkId : Int)) ∧
    (∀ (v : Vocab) (w : String), w = "" → wordIndexOf v w = -1) ∧
    (∀ (v : Vocab) (p : Params) (t : PNode),
       (∀ w, v.encode w < p.embeddings.length) → goodWords t = true →
       ∃ out, runExecutor p (build_feed_dict v t) = some out) := by
  refine ⟨?_, ?_, ?_, ?_, ?_⟩
  · intro v t i nr h
    exact flattenAux_word v t 0 i nr h
  · intro v w hw
    simp [wordIndexOf, hw]
  · intro v w hw hnone
    simp [wordIndexOf, hw, Vocab.encode, hnone]
  · intro v w hw
    simp [wordIndexOf, hw]
  · intro v p t hv hg
    have hag : ∀ (j : Nat) (nr : NodeRec), (flattenAux v t 0)[j]? = some nr →
        (build_feed_dict v t)[0 + j]? = some nr := by
      intro j nr hj
      simpa [build_feed_dict] using hj
    obtain ⟨out, hout⟩ :=
      runSteps_flatten_total v p hv t 0 (build_feed_dict v t) [] rfl hag hg
    refine ⟨out, ?_⟩
    unfold runExecutor
    rw [show (build_feed_dict v t).length = t.size from flattenAux_length v t 0]
    exact hout

theorem C9_word_resolution_witness :
    (∀ w, vLeaf.encode w < pLeaf.embeddings.length) ∧
    goodWords testTree = true ∧
    (∃ out, runExecutor pLeaf (build_feed_dict vLeaf testTree) = some out) ∧
    "a" ≠ "" ∧ wordIndexOf vLeaf "a" = (vLeaf.encode "a" : Int) ∧
    wordIndexOf vLeaf "" = -1 := by
  have hv : ∀ w, vLeaf.encode w < pLeaf.embeddings.length := by
    intro w
    by_cases h : w = "x" <;> simp [Vocab.encode, vLeaf, pLeaf, h]
  exact ⟨hv, by decide,
    C9_word_resolution.2.2.2.2 vLeaf pLeaf testTree hv (by decide),
    by decide, C9_word_resolution.2.1 vLeaf "a" (by decide),
    C9_word_resolution.2.2.2.1 vLeaf "" rfl⟩

/-- C5: learning-rate annealing — after an epoch whose mean loss `L1` exceeds
0.99 times the previous epoch's mean loss `L0`, the configuration's learning
rate is divided by 1.5; otherwise it is unchanged.  The step also records the
current epoch's mean loss as the next comparison baseline, which makes the
check apply to every pair of consecutive epochs. -/
theorem C5_anneal :
    (∀ (st : TrainState) (L0 L1 : ℚ), st.prevEpochLoss = some L0 →
       ((L1 > (99 / 100) * L0 →
          (annealUpdate defaultConfig st L1).lr = st.lr / (3 / 2)) ∧
        (¬(L1 > (99 / 100) * L0) →
          (annealUpdate defaultConfig st L1).lr = st.lr))) ∧
    (∀ (cfg : Config) (st : TrainState) (x : ℚ),
       (annealUpdate cfg st x).prevEpochLoss = some x) := by
  constructor
  · intro st L0 L1 hprev
    constructor
    · intro hgt
      have hgt2 : L1 > L0 * (99 / 100) := by linarith
      simp [annealUpdate, gtScaled, hprev, defaultConfig, hgt2]
    · intro hle
      have hle2 : ¬(L1 > L0 * (99 / 100)) := fun hx => hle (by linarith)
      simp [annealUpdate, gtScaled, hprev, defaultConfig, hle2]
  · intro cfg st x
    rfl

/-- State used by the training-loop witnesses: learning rate 1/100, previous
epoch mean loss 1, no best checkpoint yet. -/
def stPrev : TrainState := ⟨1 / 100, some 1, none, 0, -1⟩

theorem C5_anneal_witness :
    stPrev.prevEpochLoss = some 1 ∧
    ((1 : ℚ) > (99 / 100) * 1 ∧
      (annealUpdate defaultConfig stPrev 1).lr = stPrev.lr / (3 / 2)) ∧
    (¬((1 / 2 : ℚ) > (99 / 100) * 1) ∧
      (annealUpdate defaultConfig stPrev (1 / 2)).lr = stPrev.lr) ∧
    (annealUpdate defaultConfig stPrev 1).prevEpochLoss = some 1 := by
  have h1 : (1 : ℚ) > (99 / 100) * 1 := by norm_num
  have h2 : ¬((1 / 2 : ℚ) > (99 / 100) * 1) := by norm_num
  exact ⟨rfl, ⟨h1, (C5_anneal.1 stPrev 1 1 rfl).1 h1⟩,
    ⟨h2, (C5_anneal.1 stPrev 1 (1 / 2) rfl).2 h2⟩,
    C5_anneal.2 defaultConfig stPrev 1⟩

/-- C6: the gradient-descent step size is the learning-rate value captured
from the configuration once at graph construction (`buildModel`), which is
`Config.lr` (1/100 by default); every epoch applies that same captured value,
while the annealing performed by `train` mutates only the configuration state
— there are runs in which the mutated `lr` differs from the step size in use. -/
theorem C6_lr_capture :
    (∀ (cfg : Config) (e : Nat), e < cfg.max_epochs →
       (appliedLrs cfg)[e]? = some cfg.lr) ∧
    (buildModel defaultConfig).train_op_lr = 1 / 100 ∧
    (∃ (cfg : Config) (losses vlosses : Nat → ℚ),
       (trainLoop cfg losses vlosses).1.lr ≠ (buildModel cfg).train_op_lr) := by
  refine ⟨?_, rfl, ?_⟩
  · intro cfg e he
    unfold appliedLrs buildModel
    rw [List.getElem?_map, List.getElem?_range he]
    rfl
  · refine ⟨⟨35, 2, 2, 99 / 100, 3 / 2, 2, 1 / 100, 1 / 50⟩,
      fun _ => 1, fun _ => 1, ?_⟩
    norm_num [trainLoop, trainStep, annealUpdate, checkpointUpdate, stopCheck,
      initState, gtScaled, ltOpt, buildModel, List.range_succ]

theorem C6_lr_capture_witness :
    0 < defaultConfig.max_epochs ∧
    (appliedLrs defaultConfig)[0]? = some defaultConfig.lr :=
  ⟨by decide, C6_lr_capture.1 defaultConfig 0 (by decide)⟩

/-- Counting variant of a left fold that increments its second component once
per element. -/
theorem foldl_snd_count {α : Type} (g : α × Nat → Nat → α) :
    ∀ (l : List Nat) (a : α) (c : Nat),
      (l.foldl (fun acc e => (g acc e, acc.2 + 1)) (a, c)).2 = c + l.length := by
  intro l
  induction l with
  | nil => intro a c; simp
  | cons x xs ih =>
      intro a c
      rw [List.foldl_cons,
        show ((g (a, c) x, (a, c).2 + 1) : α × Nat) = (g (a, c) x, c + 1) from rfl,
        ih]
      simp only [List.length_cons]
      omega

/-- C7: the early-stopping check marks the run as stopped (records the epoch)
exactly when the current epoch minus the best-validation epoch exceeds
`early_stopping` (2 by default) — and only marks, never breaks: the epoch
loop always executes exactly `max_epochs` iterations (30 by default). -/
theorem C7_early_stop :
    (∀ (cfg : Config) (st : TrainState) (e : Nat),
       ((e : Int) - (st.bestValEpoch : Int) > (cfg.early_stopping : Int) →
          (stopCheck cfg st e).stopped = (e : Int)) ∧
       (¬((e : Int) - (st.bestValEpoch : Int) > (cfg.early_stopping : Int)) →
          (stopCheck cfg st e).stopped = st.stopped)) ∧
    (∀ (cfg : Config) (losses vlosses : Nat → ℚ),
       (trainLoop cfg losses vlosses).2 = cfg.max_epochs) ∧
    defaultConfig.early_stopping = 2 ∧ defaultConfig.max_epochs = 30 := by
  refine ⟨?_, ?_, rfl, rfl⟩
  · intro cfg st e
    constructor
    · intro hgt
      unfold stopCheck
      rw [if_pos hgt]
    · intro hle
      unfold stopCheck
      rw [if_neg hle]
  · intro cfg losses vlosses
    have h := foldl_snd_count
      (fun acc epoch => trainStep cfg acc.1 epoch (losses epoch) (vlosses epoch))
      (List.range cfg.max_epochs) (initState cfg) 0
    rw [List.length_range] at h
    exact h.trans (Nat.zero_add _)

theorem C7_early_stop_witness :
    (((5 : Nat) : Int) - (stPrev.bestValEpoch : Int) >
       (defaultConfig.early_stopping : Int) ∧
     (stopCheck defaultConfig stPrev 5).stopped = ((5 : Nat) : Int)) ∧
    (¬(((1 : Nat) : Int) - (stPrev.bestValEpoch : Int) >
       (defaultConfig.early_stopping : Int)) ∧
     (stopCheck defaultConfig stPrev 1).stopped = stPrev.stopped) ∧
    (trainLoop defaultConfig (fun _ => 1) (fun _ => 1)).2 =
      defaultConfig.max_epochs :=
  ⟨⟨by decide, (C7_early_stop.1 defaultConfig stPrev 5).1 (by decide)⟩,
   ⟨by decide, (C7_early_stop.1 defaultConfig stPrev 1).2 (by decide)⟩,
   C7_early_stop.2.1 defaultConfig (fun _ => 1) (fun _ => 1)⟩
